import Mathlib

/-!
Shallow embedding of the cache-service engine (MynorXico/cache-service),
translated from the TypeScript sources:

* `src/src/core/validators.ts` — value typing, sizing, TTL schema
* `src/src/core/lru.ts`        — `SizeAwareLRU`
* `src/src/core/minheap.ts`    — `MinHeap.popExpired`
* `src/src/core/hashing.ts`    — `CacheShard` (get, executeSet, executeDelete,
                                 executeIncrement, executeExpire, deleteEntry,
                                 processExpirations, enqueueOperation, createEntry)
* `src/src/core/store.ts`      — batch result re-ordering of `batchSet`/`batchDelete`
* `src/unnamed/part_008`       — `errorHandler` middleware
* `src/unnamed/part_009`       — DELETE route status selection

JavaScript `Map`s are modeled as association lists with replace-on-set and
remove-all-bindings-on-delete; since a `Map` never holds two bindings for one
key, lookup/update behaviour coincides.  JavaScript number truthiness
(`x && …`, `x ? … : …`, `x || y`) on possibly-`undefined` numbers and strings
is modeled explicitly by the `js…` helpers below.  Wall-clock instants are
`Nat` milliseconds.
-/

deriving instance DecidableEq for Except

namespace CacheService

/-! ### Value model (`validators.ts` / `types.ts`)

The set routes only admit string / number / boolean / object-or-array values
(`SetRequestSchema`), so those are the value shapes; a `json` value is carried
together with its canonical serialization, whose UTF-8 length is its size. -/

inductive ValueType where
  | string
  | number
  | boolean
  | json
deriving DecidableEq

inductive CacheValue where
  | str (s : String)
  | num (n : Int)
  | boolean (b : Bool)
  | jsonVal (serialized : String)
deriving DecidableEq

/-- Model of `inferValueType` from `validators.ts`: derive the stored type from the
runtime shape of the value. -/
def inferValueType : CacheValue → ValueType
  | .str _ => .string
  | .num _ => .number
  | .boolean _ => .boolean
  | .jsonVal _ => .json

/-- Model of `calculateValueSize` from `validators.ts`. -/
def calculateValueSize (value : CacheValue) : ValueType → Nat
  | .string => match value with | .str s => s.utf8ByteSize | _ => 0
  | .number => 8
  | .boolean => 1
  | .json => match value with | .jsonVal s => s.utf8ByteSize | _ => 0

/-- Model of `TTLSchema = z.number().int().min(0).max(2147483647)` (`validators.ts:15`);
integrality is carried by the `Int` argument. -/
def ttlSchemaAccepts (ttlSec : Int) : Bool :=
  decide (0 ≤ ttlSec ∧ ttlSec ≤ 2147483647)

structure CacheEntry where
  key : String
  value : CacheValue
  type : ValueType
  version : String
  createdAt : Nat
  updatedAt : Nat
  expiresAt : Option Nat
  sizeBytes : Nat
deriving DecidableEq

/-- JS truthiness of `number | undefined` (`0` and `undefined` are falsy). -/
def jsNumTruthy : Option Nat → Bool
  | none => false
  | some n => n != 0

/-- JS truthiness of `string | undefined` (`''` and `undefined` are falsy). -/
def jsStrTruthy : Option String → Bool
  | none => false
  | some s => s != ""

/-- Model of `existingEntry?.createdAt || now` (truthiness on the number). -/
def jsCreatedAt (existing : Option CacheEntry) (now : Nat) : Nat :=
  match existing with
  | some e => if e.createdAt != 0 then e.createdAt else now
  | none => now

/-- Model of `entry.expiresAt && entry.expiresAt <= Date.now()` — the expiry test used
by `CacheShard.get` and `executeSet`. -/
def isExpiredNow (expiresAt : Option Nat) (now : Nat) : Bool :=
  match expiresAt with
  | none => false
  | some t => t != 0 && decide (t ≤ now)

/-- Model of `CacheShard.createEntry`: `expiresAt = ttlSec ? now + ttlSec * 1000 :
undefined`, so `ttlSec = 0` yields *no* expiry.  `validateInferredValue`
always succeeds on a value whose type was just inferred from its own shape,
returning it unchanged. -/
def createEntry (key : String) (value : CacheValue) (ttlSec : Option Nat)
    (now : Nat) : CacheEntry :=
  let type := inferValueType value
  let sizeBytes := calculateValueSize value type
  let expiresAt : Option Nat :=
    match ttlSec with
    | some t => if t != 0 then some (now + t * 1000) else none
    | none => none
  { key := key, value := value, type := type, version := "",
    createdAt := now, updatedAt := now, expiresAt := expiresAt,
    sizeBytes := sizeBytes }

/-! ### Size-aware LRU (`lru.ts`)

The doubly-linked list plus key→node map is modeled as a list of
`(key, sizeBytes)` pairs in MRU-first order (head of the list is `head.next`,
its last element is `tail.prev`); in the shard the stored node value is the key
itself, so the value slot is omitted.  `capacity`/`maxSizeBytes` are `none`
when the source passes `Infinity`. -/

structure SizeAwareLRU where
  capacity : Option Nat
  maxSizeBytes : Option Nat
  currentSizeBytes : Nat
  size : Nat
  items : List (String × Nat)
deriving DecidableEq

/-- Model of `size > capacity` rsp. `bytes > maxSizeBytes`; any finite value is below
`Infinity`. -/
def overLimit : Option Nat → Nat → Bool
  | none, _ => false
  | some limit, v => decide (limit < v)

/-- Remove the node bound to `key` (a key has at most one node). -/
def removeNodeKey (items : List (String × Nat)) (key : String) :
    List (String × Nat) :=
  items.filter (fun p => p.1 != key)

/-- The insert-or-update half of `SizeAwareLRU.set` (before the eviction
loop): update size and move to front, or create a fresh node at the front. -/
def lruInsertOrUpdate (lru : SizeAwareLRU) (key : String) (sizeBytes : Nat) :
    SizeAwareLRU :=
  match List.lookup key lru.items with
  | some oldSize =>
      { lru with
        currentSizeBytes := lru.currentSizeBytes - oldSize + sizeBytes,
        items := (key, sizeBytes) :: removeNodeKey lru.items key }
  | none =>
      { lru with
        items := (key, sizeBytes) :: lru.items,
        size := lru.size + 1,
        currentSizeBytes := lru.currentSizeBytes + sizeBytes }

/-- The `while (size > capacity || bytes > maxSizeBytes)` eviction loop of
`SizeAwareLRU.set`, acting on the LRU-first (reversed) item list so that the
list head is `tail.prev`; returns (kept items LRU-first, size, bytes, evicted
keys in eviction order).  The empty-list case is the `break` safety check when
`evictLRU` returns `undefined`. -/
def evictLoop (capacity maxSizeBytes : Option Nat) :
    List (String × Nat) → Nat → Nat →
    List (String × Nat) × Nat × Nat × List String
  | [], size, bytes => ([], size, bytes, [])
  | (k, s) :: rest, size, bytes =>
    if overLimit capacity size || overLimit maxSizeBytes bytes then
      let r := evictLoop capacity maxSizeBytes rest (size - 1) (bytes - s)
      (r.1, r.2.1, r.2.2.1, k :: r.2.2.2)
    else ((k, s) :: rest, size, bytes, [])

/-- Model of `SizeAwareLRU.set`: insert/update, then evict while over either limit;
returns the updated LRU and the evicted node values (the keys). -/
def SizeAwareLRU.set (lru : SizeAwareLRU) (key : String) (sizeBytes : Nat) :
    SizeAwareLRU × List String :=
  let lru1 := lruInsertOrUpdate lru key sizeBytes
  let r := evictLoop lru1.capacity lru1.maxSizeBytes lru1.items.reverse
      lru1.size lru1.currentSizeBytes
  ({ lru1 with items := r.1.reverse, size := r.2.1, currentSizeBytes := r.2.2.1 },
   r.2.2.2)

/-- Model of `SizeAwareLRU.get`: promote the node to the front and return its value
(the key); `none` when absent. -/
def SizeAwareLRU.get (lru : SizeAwareLRU) (key : String) :
    Option String × SizeAwareLRU :=
  match List.lookup key lru.items with
  | none => (none, lru)
  | some s =>
      (some key, { lru with items := (key, s) :: removeNodeKey lru.items key })

/-- Model of `SizeAwareLRU.delete`. -/
def SizeAwareLRU.delete (lru : SizeAwareLRU) (key : String) :
    SizeAwareLRU × Bool :=
  match List.lookup key lru.items with
  | none => (lru, false)
  | some s =>
      ({ lru with items := removeNodeKey lru.items key,
                  size := lru.size - 1,
                  currentSizeBytes := lru.currentSizeBytes - s }, true)

/-! ### TTL min-heap (`minheap.ts`)

The heap array is modeled as a list of records; `pop` extracts a record of
minimal `expiresAt` (heap tie-breaking is arbitrary), and `popExpired`
repeatedly pops while the minimum is `≤ now`. -/

structure HeapEntry where
  key : String
  expiresAt : Nat
  shard : Nat
deriving DecidableEq

def minExpiryRecord : List HeapEntry → Option HeapEntry
  | [] => none
  | e :: rest =>
    match minExpiryRecord rest with
    | none => some e
    | some m => if e.expiresAt ≤ m.expiresAt then some e else some m

def popExpiredGo (now : Nat) : Nat → List HeapEntry →
    List HeapEntry × List HeapEntry
  | 0, heap => ([], heap)
  | fuel + 1, heap =>
    match minExpiryRecord heap with
    | none => ([], heap)
    | some m =>
      if m.expiresAt ≤ now then
        let r := popExpiredGo now fuel (heap.erase m)
        (m :: r.1, r.2)
      else ([], heap)

/-- Model of `MinHeap.popExpired`: all records with `expiresAt ≤ now`, in pop order,
together with the remaining heap. -/
def popExpired (heap : List HeapEntry) (now : Nat) :
    List HeapEntry × List HeapEntry :=
  popExpiredGo now heap.length heap

/-! ### Errors (`errors.ts`) and the boundary `errorHandler` (`part_008`) -/

inductive CacheErr where
  | conflictKeyExists (key : String)
  | conflictVersionMismatch (key : String) (expected : String)
      (actual : Option String)
  | payloadTooLarge (size limit : Nat)
  | badRequestNonNumeric (key : String)
deriving DecidableEq

/-- Model of `CacheError.getStatusCode`. -/
def statusCodeOf : CacheErr → Nat
  | .conflictKeyExists _ => 409
  | .conflictVersionMismatch _ _ _ => 409
  | .payloadTooLarge _ _ => 413
  | .badRequestNonNumeric _ => 400

/-- Errors thrown by the engine that reach the boundary: typed `CacheError`s,
the store backpressure error (`statusCode = 503`, carrying `retryAfter`), and
plain `new Error(message)` objects (name `'Error'`, no `statusCode`). -/
inductive ThrownError where
  | cacheError (e : CacheErr)
  | overloaded (retryAfter : Nat)
  | generic (message : String)
deriving DecidableEq

def charsMatchAt : List Char → List Char → Bool
  | [], _ => true
  | _ :: _, [] => false
  | a :: as, b :: bs => a == b && charsMatchAt as bs

def charsContain (needle : List Char) : List Char → Bool
  | [] => needle.isEmpty
  | c :: rest => charsMatchAt needle (c :: rest) || charsContain needle rest

/-- Model of `message.includes(needle)`. -/
def strContains (message needle : String) : Bool :=
  charsContain needle.toList message.toList

/-- Model of `errorHandler` (`part_008`): returns the HTTP status and the value of the
`Retry-After` header, if any.  `CacheError`s map through their own status; an
error with `statusCode === 503` maps to 503 with
`Retry-After: retryAfter || '1'`; a plain `Error` falls through the
validation / JSON-syntax / timeout checks to the 500 default. -/
def errorHandler : ThrownError → Nat × Option String
  | .cacheError e => (statusCodeOf e, none)
  | .overloaded retryAfter =>
      (503, some (if retryAfter != 0 then toString retryAfter else "1"))
  | .generic message =>
      if strContains message "validation" then (400, none)
      else if message == "Request timeout" then (408, none)
      else (500, none)

/-- DELETE `/v1/kv/:key` (`part_009`): `deleted ? 204 : 404` (the 404 is the
`NotFoundError` thrown when `deleted` is false). -/
def deleteRouteStatus (deleted : Bool) : Nat :=
  if deleted then 204 else 404

/-! ### The shard actor (`CacheShard` in `hashing.ts`) -/

structure ShardStats where
  entries : Nat
  memoryBytes : Nat
  hits : Nat
  misses : Nat
  sets : Nat
  deletes : Nat
  evictions : Nat
  expirations : Nat
deriving DecidableEq

/-- The payload of a queued `set` message: a real entry, or the
`{ delta } as any` increment marker. -/
inductive SetPayload where
  | entry (e : CacheEntry)
  | incrDelta (d : Int)
deriving DecidableEq

inductive ShardOperation where
  | set (key : String) (payload : SetPayload) (ifMatch : Option String)
      (ifNoneMatch : Bool)
  | del (key : String) (ifMatch : Option String)
  | expire (key : String)
  | evict (key : String)
deriving DecidableEq

structure CacheShard where
  shardId : Nat
  entries : List (String × CacheEntry)
  lru : SizeAwareLRU
  ttlHeap : List HeapEntry
  operationQueue : List ShardOperation
  maxItemBytes : Nat
  maxMailboxSize : Nat
  stats : ShardStats
deriving DecidableEq

/-- The `CacheShard` constructor: no entry-count limit, byte budget
`memoryBudgetBytes || Infinity` (so a budget of `0` disables the byte limit). -/
def mkShard (shardId maxItemBytes : Nat) (memoryBudgetBytes : Option Nat)
    (maxMailboxSize : Nat) : CacheShard :=
  { shardId := shardId, entries := [],
    lru := { capacity := none,
             maxSizeBytes :=
               match memoryBudgetBytes with
               | some b => if b != 0 then some b else none
               | none => none,
             currentSizeBytes := 0, size := 0, items := [] },
    ttlHeap := [], operationQueue := [],
    maxItemBytes := maxItemBytes, maxMailboxSize := maxMailboxSize,
    stats := ⟨0, 0, 0, 0, 0, 0, 0, 0⟩ }

/-- Model of `Map.set` on the entry index. -/
def entriesSet (entries : List (String × CacheEntry)) (key : String)
    (e : CacheEntry) : List (String × CacheEntry) :=
  (key, e) :: entries.filter (fun p => p.1 != key)

/-- Model of `Map.delete` on the entry index. -/
def entriesErase (entries : List (String × CacheEntry)) (key : String) :
    List (String × CacheEntry) :=
  entries.filter (fun p => p.1 != key)

def entriesHas (entries : List (String × CacheEntry)) (key : String) : Bool :=
  (List.lookup key entries).isSome

/-- Model of `CacheShard.deleteEntry`: remove from the entry index and the LRU. -/
def deleteEntry (sh : CacheShard) (key : String) : CacheShard × Bool :=
  match List.lookup key sh.entries with
  | none => (sh, false)
  | some _ =>
      ({ sh with entries := entriesErase sh.entries key,
                 lru := (sh.lru.delete key).1 }, true)

/-- Model of `CacheShard.get`, the read fast path: lazy expiry, LRU promotion,
hit/miss/expiration counters. -/
def CacheShard.get (sh : CacheShard) (key : String) (now : Nat) :
    Option CacheEntry × CacheShard :=
  match List.lookup key sh.entries with
  | none =>
      (none, { sh with stats := { sh.stats with misses := sh.stats.misses + 1 } })
  | some entry =>
    if isExpiredNow entry.expiresAt now then
      let sh1 := (deleteEntry sh key).1
      (none, { sh1 with stats :=
        { sh1.stats with misses := sh1.stats.misses + 1,
                         expirations := sh1.stats.expirations + 1 } })
    else
      (some entry,
       { sh with lru := (sh.lru.get key).2,
                 stats := { sh.stats with hits := sh.stats.hits + 1 } })

/-- Model of `CacheShard.enqueueOperation`: reject with a plain
`Error('Shard mailbox full')` when the mailbox is at capacity, else append. -/
def enqueueOperation (sh : CacheShard) (op : ShardOperation) :
    Except ThrownError CacheShard :=
  if sh.maxMailboxSize ≤ sh.operationQueue.length then
    .error (.generic "Shard mailbox full")
  else
    .ok { sh with operationQueue := sh.operationQueue ++ [op] }

/-- The expired-as-absent view used by `executeSet` for CAS:
`effectiveEntry = isExpired ? undefined : existingEntry`. -/
def effectiveEntryOf (existing : Option CacheEntry) (now : Nat) :
    Option CacheEntry :=
  match existing with
  | none => none
  | some e => if isExpiredNow e.expiresAt now then none else some e

/-- Model of `if (ifMatch && (!effectiveEntry || effectiveEntry.version !== ifMatch))`. -/
def ifMatchRejects (ifMatch : Option String) (effective : Option CacheEntry) :
    Bool :=
  jsStrTruthy ifMatch &&
    (match effective with
     | none => true
     | some e => e.version != ifMatch.getD "")

/-- Model of `effectiveEntry?.version || null` in the conflict detail. -/
def actualVersionOf (effective : Option CacheEntry) : Option String :=
  match effective with
  | none => none
  | some e => if e.version != "" then some e.version else none

structure SetResult where
  version : String
  expiresAt : Option Nat
deriving DecidableEq

/-- Model of `CacheShard.executeIncrement`: the stale entry's value is used as base even
if expired, the fresh `number` entry has no `expiresAt`, and the eviction list
returned by `lru.set` is discarded. -/
def executeIncrement (sh : CacheShard) (key : String) (delta : Int) (now : Nat)
    (newVersion : String) : Except CacheErr (Int × String × CacheShard) :=
  let existingEntry := List.lookup key sh.entries
  let base : Except CacheErr Int :=
    match existingEntry with
    | none => .ok 0
    | some e =>
      if e.type = ValueType.number then
        .ok (match e.value with | .num n => n | _ => 0)
      else .error (.badRequestNonNumeric key)
  match base with
  | .error er => .error er
  | .ok currentValue =>
    let newValue := currentValue + delta
    let newEntry : CacheEntry :=
      { key := key, value := .num newValue, type := .number,
        version := newVersion, createdAt := jsCreatedAt existingEntry now,
        updatedAt := now, expiresAt := none, sizeBytes := 8 }
    .ok (newValue, newVersion,
      { sh with entries := entriesSet sh.entries key newEntry,
                lru := (sh.lru.set key newEntry.sizeBytes).1,
                stats := { sh.stats with sets := sh.stats.sets + 1 } })

/-- Model of `CacheShard.executeSet` (the non-increment branch): CAS checks against the
expired-as-absent view, payload ceiling, entry replacement, LRU update with
eviction drain, TTL-heap push.  `newVersion` stands for the freshly minted
`ulid()`. -/
def executeSet (sh : CacheShard) (key : String) (entry : CacheEntry)
    (ifMatch : Option String) (ifNoneMatch : Bool) (now : Nat)
    (newVersion : String) : Except CacheErr (SetResult × CacheShard) :=
  let existingEntry := List.lookup key sh.entries
  let effectiveEntry := effectiveEntryOf existingEntry now
  if ifNoneMatch && effectiveEntry.isSome then
    .error (.conflictKeyExists key)
  else if ifMatchRejects ifMatch effectiveEntry then
    .error (.conflictVersionMismatch key (ifMatch.getD "")
      (actualVersionOf effectiveEntry))
  else if sh.maxItemBytes < entry.sizeBytes then
    .error (.payloadTooLarge entry.sizeBytes sh.maxItemBytes)
  else
    let newEntry : CacheEntry :=
      { entry with version := newVersion, updatedAt := now,
                   createdAt := jsCreatedAt existingEntry now }
    let r := sh.lru.set key newEntry.sizeBytes
    let sh1 : CacheShard :=
      { sh with entries := entriesSet sh.entries key newEntry,
                lru := r.1,
                stats := { sh.stats with sets := sh.stats.sets + 1 } }
    let sh2 := r.2.foldl (fun s k =>
      let s1 := (deleteEntry s k).1
      { s1 with stats :=
          { s1.stats with evictions := s1.stats.evictions + 1 } }) sh1
    let sh3 :=
      if jsNumTruthy newEntry.expiresAt then
        { sh2 with ttlHeap := sh2.ttlHeap ++
            [⟨key, newEntry.expiresAt.getD 0, sh2.shardId⟩] }
      else sh2
    .ok ({ version := newEntry.version, expiresAt := newEntry.expiresAt }, sh3)

/-- Model of `CacheShard.executeDelete`: no expiry check — an expired-but-present entry
is deleted and reported as `true`. -/
def executeDelete (sh : CacheShard) (key : String) (ifMatch : Option String) :
    Except CacheErr (Bool × CacheShard) :=
  match List.lookup key sh.entries with
  | none => .ok (false, sh)
  | some existingEntry =>
    if jsStrTruthy ifMatch && existingEntry.version != ifMatch.getD "" then
      .error (.conflictVersionMismatch key (ifMatch.getD "")
        (some existingEntry.version))
    else
      let sh1 := (deleteEntry sh key).1
      .ok (true,
        { sh1 with stats := { sh1.stats with deletes := sh1.stats.deletes + 1 } })

/-- Model of `CacheShard.executeExpire`: unconditionally `deleteEntry(key)`. -/
def executeExpire (sh : CacheShard) (key : String) : CacheShard :=
  (deleteEntry sh key).1

/-- Model of `CacheShard.processExpirations` together with the mailbox drain of the
enqueued `expire` mutations: pop all expired heap records; for each, if the
entry index still has the key, the `expire` mutation runs `executeExpire`. -/
def processExpirations (sh : CacheShard) (now : Nat) : CacheShard :=
  let p := popExpired sh.ttlHeap now
  p.1.foldl
    (fun s rec => if entriesHas s.entries rec.key then executeExpire s rec.key else s)
    { sh with ttlHeap := p.2 }

/-! ### Batch result ordering (`store.ts`)

`batchSet`/`batchDelete` collect one result per input item in completion
order, then re-sort with the stable JS `Array.sort` under the comparator
`(a, b) => (keyOrder.get(a.key) || 0) - (keyOrder.get(b.key) || 0)`, where
`keyOrder = new Map(inputs.map((item, index) => [item.key, index]))` keeps the
*last* index of each key.  A result is modeled as a pair of its key and an
opaque payload (status/version/error). -/

def assocSet (m : List (String × Nat)) (k : String) (v : Nat) :
    List (String × Nat) :=
  (k, v) :: m.filter (fun p => p.1 != k)

def buildKeyOrderAux : List (String × Nat) → Nat → List String →
    List (String × Nat)
  | m, _, [] => m
  | m, i, k :: rest => buildKeyOrderAux (assocSet m k i) (i + 1) rest

/-- Model of `new Map(inputs.map((item, index) => [item.key, index]))`. -/
def buildKeyOrder (keys : List String) : List (String × Nat) :=
  buildKeyOrderAux [] 0 keys

/-- Model of `keyOrder.get(k) || 0`. -/
def jsKeyOrder (keys : List String) (k : String) : Nat :=
  (List.lookup k (buildKeyOrder keys)).getD 0

/-- Stable insertion: an element goes in front of the first element with a
key rank not smaller than its own, so earlier-completed results keep their
relative order among equal ranks — the stability contract of `Array.sort`. -/
def sortInsert (f : α → Nat) (a : α) : List α → List α
  | [] => [a]
  | b :: l => if f a ≤ f b then a :: b :: l else b :: sortInsert f a l

def stableSortBy (f : α → Nat) : List α → List α
  | [] => []
  | a :: l => sortInsert f a (stableSortBy f l)

/-- Model of `results.sort((a, b) => (keyOrder.get(a.key) || 0) - (keyOrder.get(b.key) || 0))`
— shared by `batchSet` (store.ts:212-216) and `batchDelete` (store.ts:273-277). -/
def sortBatchResults (inputKeys : List String) (results : List (String × α)) :
    List (String × α) :=
  stableSortBy (fun r => jsKeyOrder inputKeys r.1) results

/-! ### Accounting helpers -/

def sizeSum (items : List (String × Nat)) : Nat :=
  (items.map Prod.snd).sum

def entriesSizeSum (entries : List (String × CacheEntry)) : Nat :=
  (entries.map (fun p => p.2.sizeBytes)).sum

/-- Well-formedness of the LRU bookkeeping: the counters agree with the list
and keys are unique (the key→node map holds one node per key). -/
def lruWF (lru : SizeAwareLRU) : Prop :=
  lru.size = lru.items.length ∧
  lru.currentSizeBytes = sizeSum lru.items ∧
  (lru.items.map Prod.fst).Nodup

instance (lru : SizeAwareLRU) : Decidable (lruWF lru) := by
  unfold lruWF; infer_instance

/-! ### Concrete scenario states used by the counterexample / bug theorems -/

/-- Extract the post-state of a successful `executeSet`; the default is never
taken in the scenarios below (each theorem also pins the successful result). -/
def exShard (r : Except CacheErr (SetResult × CacheShard)) (d : CacheShard) :
    CacheShard :=
  match r with
  | .ok p => p.2
  | .error _ => d

/-- C1 scenario: `set k ttl=1` at t=0 (expiry 1000, heap record pushed). -/
def c1Shard0 : CacheShard := mkShard 0 1000 none 1000

def c1Shard1 : CacheShard :=
  exShard (executeSet c1Shard0 "k" (createEntry "k" (.str "x") (some 1) 0)
    none false 0 "v1") c1Shard0

/-- C1 scenario: overwrite `k` with `ttl=5` at t=0 (expiry 5000); the stale
heap record for 1000 remains. -/
def c1ShardBefore : CacheShard :=
  exShard (executeSet c1Shard1 "k" (createEntry "k" (.str "x") (some 5) 0)
    none false 0 "v2") c1Shard0

/-- C2 scenario: shard with a 10-byte budget holding one 8-byte number. -/
def c2Shard0 : CacheShard := mkShard 0 1000 (some 10) 1000

def c2Shard1 : CacheShard :=
  exShard (executeSet c2Shard0 "a" (createEntry "a" (.num 1) none 1000)
    none false 1000 "v1") c2Shard0

def c2Shard2 : CacheShard :=
  match executeIncrement c2Shard1 "b" 1 2000 "v2" with
  | .ok p => p.2.2
  | .error _ => c2Shard0

/-- C6 scenario: a shard whose mailbox (capacity 2) is already full. -/
def c6Op : ShardOperation := .del "x" none

def c6Shard : CacheShard :=
  { mkShard 0 1000 none 2 with operationQueue := [c6Op, c6Op] }

/-- C8 scenario: `set k ttl=1` at t=0, so the entry is expired at t=2000. -/
def c8Before : CacheShard :=
  exShard (executeSet c1Shard0 "k" (createEntry "k" (.str "x") (some 1) 0)
    none false 0 "v1") c1Shard0

/-- C9 scenario: a `set` carrying `ttlSec = 0` on an empty shard. -/
def c9Run : Except CacheErr (SetResult × CacheShard) :=
  executeSet (mkShard 0 1000 none 1000) "k"
    (createEntry "k" (.str "x") (some 0) 1000) none false 1000 "v1"

/-- C3 scenario: `set w ttl=1` at t=0, expired by t=2000. -/
def c3W : CacheShard :=
  exShard (executeSet (mkShard 0 1000 none 1000) "w"
    (createEntry "w" (.str "x") (some 1) 0) none false 0 "v1")
    (mkShard 0 1000 none 1000)

/-- C3 scenario: the entry stored in `c3W`. -/
def c3E : CacheEntry :=
  { key := "w", value := .str "x", type := .string, version := "v1",
    createdAt := 0, updatedAt := 0, expiresAt := some 1000, sizeBytes := 1 }

/-- C4 scenario: a live entry with version `v1`. -/
def c4E : CacheEntry :=
  { key := "w", value := .str "x", type := .string, version := "v1",
    createdAt := 0, updatedAt := 0, expiresAt := none, sizeBytes := 1 }

/-- C4 scenario: a shard holding `c4E`. -/
def c4W : CacheShard :=
  { mkShard 0 1000 none 1000 with
      entries := [("w", c4E)],
      lru := { capacity := none, maxSizeBytes := none, currentSizeBytes := 1,
               size := 1, items := [("w", 1)] } }

/-- C5 scenario: an LRU holding one 10-byte node under finite limits. -/
def c5W : SizeAwareLRU :=
  { capacity := some 2, maxSizeBytes := some 100, currentSizeBytes := 10,
    size := 1, items := [("b", 10)] }

/-- C7 scenario: results for input keys `["a", "b"]` in completion order. -/
def c7WResults : List (String × Nat) := [("b", 0), ("a", 1)]

/-- C10 scenario: an expired number-typed entry. -/
def c10E : CacheEntry :=
  { key := "n", value := .num 5, type := .number, version := "v1",
    createdAt := 0, updatedAt := 0, expiresAt := some 1000, sizeBytes := 8 }

/-- C10 scenario: a shard holding `c10E`. -/
def c10W : CacheShard :=
  { mkShard 0 1000 none 1000 with
      entries := [("n", c10E)],
      lru := { capacity := none, maxSizeBytes := none, currentSizeBytes := 8,
               size := 1, items := [("n", 8)] } }

/-! ## Theorems -/

theorem lookup_filter_ne {β : Type} (l : List (String × β)) (key : String) :
    List.lookup key (l.filter (fun p => p.1 != key)) = none := by
  induction l with
  | nil => rfl
  | cons p rest ih =>
    rcases p with ⟨a, b⟩
    rw [List.filter_cons]
    by_cases h : a = key
    · rw [show ((a, b).1 != key) = false by simp [h]]
      exact ih
    · rw [show ((a, b).1 != key) = true by simp [h]]
      rw [if_pos rfl]
      show (match key == a with
        | true => some b
        | false => List.lookup key (List.filter (fun p => p.1 != key) rest)) = none
      rw [show (key == a) = false by simp [Ne.symm h]]
      exact ih

theorem lookup_entriesSet_self (l : List (String × CacheEntry)) (key : String)
    (e : CacheEntry) : List.lookup key (entriesSet l key e) = some e := by
  simp [entriesSet, List.lookup]

theorem lookup_lru_delete (lru : SizeAwareLRU) (key : String) :
    List.lookup key (lru.delete key).1.items = none := by
  unfold SizeAwareLRU.delete
  cases h : List.lookup key lru.items with
  | none => simpa using h
  | some s => simpa [removeNodeKey] using lookup_filter_ne lru.items key

/-- Claim C1 (code bug). The spec requires the sweeper to drop a popped heap
record unless the live entry still exists, is expired by wall clock, and its
current `expires_at` equals the popped record.  The code only checks
`entries.has(key)` and `executeExpire` deletes unconditionally: after `k` is
overwritten with expiry 5000, the sweep at t=2000 pops the stale record for
1000 and deletes the live, unexpired entry — the claim says it must be left
unchanged. -/
theorem c1_sweeper_lacks_ttl_extension_guard :
    (List.lookup "k" c1ShardBefore.entries).map (fun e => e.expiresAt) =
      some (some 5000) ∧
    ¬(5000 ≤ 2000) ∧
    c1ShardBefore.ttlHeap = [⟨"k", 1000, 0⟩, ⟨"k", 5000, 0⟩] ∧
    List.lookup "k" (processExpirations c1ShardBefore 2000).entries = none := by
  decide

/-- Claim C2 (code bug). The per-shard accounting invariant
`Σ size_bytes = LRU.bytes ∧ |entries| = LRU.len` holds after the first set,
but `executeIncrement` discards the eviction list returned by `lru.set`: the
increment of a fresh key under a 10-byte budget evicts `"a"` from the LRU
while leaving it in the entry index, so the sums and the lengths diverge. -/
theorem c2_increment_drops_eviction_accounting :
    entriesSizeSum c2Shard1.entries = 8 ∧
    c2Shard1.lru.currentSizeBytes = 8 ∧
    c2Shard1.entries.length = 1 ∧ c2Shard1.lru.size = 1 ∧
    (executeIncrement c2Shard1 "b" 1 2000 "v2").isOk = true ∧
    entriesSizeSum c2Shard2.entries = 16 ∧
    c2Shard2.lru.currentSizeBytes = 8 ∧
    c2Shard2.entries.length = 2 ∧ c2Shard2.lru.size = 1 := by
  decide

/-- Claim C6 (code bug). A mutation admitted to a full mailbox is rejected with
a plain `Error('Shard mailbox full')` — not a typed Overloaded error — and the
boundary `errorHandler` maps it to HTTP 500 with no `Retry-After` header,
whereas the claim requires 503 with `Retry-After: 0`. -/
theorem c6_mailbox_full_maps_to_internal_500 :
    enqueueOperation c6Shard c6Op = .error (.generic "Shard mailbox full") ∧
    errorHandler (.generic "Shard mailbox full") = (500, none) ∧
    500 ≠ 503 := by
  decide

/-- Claim C8 (code bug). `executeDelete` never consults the clock: the entry
for `k` is expired at t=2000 (`expires_at = 1000 ≤ 2000`) yet delete returns
`true` and the boundary answers 204, whereas the claim requires `false` and
NotFound/404. -/
theorem c8_delete_expired_returns_deleted :
    (List.lookup "k" c8Before.entries).map (fun e => e.expiresAt) =
      some (some 1000) ∧
    1000 ≤ 2000 ∧
    (executeDelete c8Before "k" none).map Prod.fst = .ok true ∧
    deleteRouteStatus true = 204 ∧
    deleteRouteStatus true ≠ 404 := by
  decide

/-- Claim C3 (confirmed). Lazy expiry on the read fast path: if the stored entry
has `expires_at = some t` with `t ≤ now` (and `t ≠ 0`, as every stored expiry
is `creation + ttl·1000 ≥ 1000`), `get` removes the entry from the entry index
and the LRU, increments `misses` and `expirations`, and returns `none`;
moreover whenever `get` returns an entry from a state whose expiries are
nonzero, that entry's `expires_at` is absent or strictly beyond `now`. -/
theorem c3_get_lazy_expiry (sh : CacheShard) (key : String) (now t : Nat)
    (e : CacheEntry) (hl : List.lookup key sh.entries = some e)
    (he : e.expiresAt = some t) (ht0 : 0 < t) (htn : t ≤ now) :
    (CacheShard.get sh key now).1 = none ∧
    List.lookup key (CacheShard.get sh key now).2.entries = none ∧
    List.lookup key (CacheShard.get sh key now).2.lru.items = none ∧
    (CacheShard.get sh key now).2.stats.misses = sh.stats.misses + 1 ∧
    (CacheShard.get sh key now).2.stats.expirations = sh.stats.expirations + 1 ∧
    (∀ (sh' : CacheShard) (e' : CacheEntry),
      (∀ ent, List.lookup key sh'.entries = some ent → ent.expiresAt ≠ some 0) →
      (CacheShard.get sh' key now).1 = some e' →
      e'.expiresAt = none ∨ ∃ u, e'.expiresAt = some u ∧ now < u) := by
  have hexp : isExpiredNow e.expiresAt now = true := by
    rw [he]
    simp only [isExpiredNow, Bool.and_eq_true, bne_iff_ne, ne_eq,
      decide_eq_true_eq]
    exact ⟨by omega, htn⟩
  have hdel : (deleteEntry sh key).1 =
      { sh with entries := entriesErase sh.entries key,
                lru := (sh.lru.delete key).1 } := by
    simp [deleteEntry, hl]
  have hget : CacheShard.get sh key now =
      (none,
        { (deleteEntry sh key).1 with stats :=
          { (deleteEntry sh key).1.stats with
              misses := (deleteEntry sh key).1.stats.misses + 1,
              expirations := (deleteEntry sh key).1.stats.expirations + 1 } }) := by
    simp [CacheShard.get, hl, hexp]
  refine ⟨by rw [hget], ?_, ?_, ?_, ?_, ?_⟩
  · rw [hget]; simp only [hdel]
    exact lookup_filter_ne sh.entries key
  · rw [hget]; simp only [hdel]
    exact lookup_lru_delete sh.lru key
  · rw [hget]; simp [hdel]
  · rw [hget]; simp [hdel]
  · intro sh' e' hzero hres
    cases hl' : List.lookup key sh'.entries with
    | none => simp [CacheShard.get, hl'] at hres
    | some entry =>
      by_cases hx : isExpiredNow entry.expiresAt now = true
      · simp [CacheShard.get, hl', hx] at hres
      · have hx' : isExpiredNow entry.expiresAt now = false := by simpa using hx
        simp only [CacheShard.get, hl', hx', Bool.false_eq_true, if_false,
          Option.some.injEq] at hres
        subst hres
        cases hu : entry.expiresAt with
        | none => exact Or.inl rfl
        | some u =>
          refine Or.inr ⟨u, rfl, ?_⟩
          rw [hu] at hx'
          simp only [isExpiredNow, Bool.and_eq_false_iff, bne_eq_false_iff_eq,
            decide_eq_false_iff_not, not_le] at hx'
          have hu0 : u ≠ 0 := by
            intro h0
            exact hzero entry hl' (by rw [hu, h0])
          rcases hx' with h | h
          · exact absurd h hu0
          · exact h

theorem c3_get_lazy_expiry_witness :
    List.lookup "w" c3W.entries = some c3E ∧
    (CacheShard.get c3W "w" 2000).1 = none ∧
    List.lookup "w" (CacheShard.get c3W "w" 2000).2.entries = none ∧
    (CacheShard.get c3W "w" 2000).2.stats.expirations =
      c3W.stats.expirations + 1 :=
  have h := c3_get_lazy_expiry c3W "w" 2000 1000 c3E (by decide) (by decide)
    (by decide) (by decide)
  ⟨by decide, h.1, h.2.1, h.2.2.2.2.1⟩

/-- Claim C4 (confirmed). CAS on `executeSet`: a wall-clock-expired entry is
treated as absent (`effectiveEntryOf` yields `none`); with `if_none_match` set
and the key effectively present the set fails with the key-exists Conflict;
with `if_match = v` (a nonempty version, as `VersionSchema` guarantees) and
the key effectively absent or holding a different version — and the
`if_none_match` clause, which the code checks first, not firing — the set
fails with the version-mismatch Conflict carrying
`{expected := v, actual := effectiveEntry?.version || null}`.  In every
conflict case `executeSet` returns before building a successor state, so the
shard is unchanged. -/
theorem c4_cas_conditional_set (sh : CacheShard) (key : String)
    (entry e : CacheEntry) (v : String) (ifMatch : Option String)
    (ifNoneMatch : Bool) (now : Nat) (newVersion : String) :
    (List.lookup key sh.entries = some e → isExpiredNow e.expiresAt now = true →
      effectiveEntryOf (List.lookup key sh.entries) now = none) ∧
    (ifNoneMatch = true →
      (effectiveEntryOf (List.lookup key sh.entries) now).isSome = true →
      executeSet sh key entry ifMatch ifNoneMatch now newVersion =
        .error (.conflictKeyExists key)) ∧
    (ifMatch = some v → v ≠ "" →
      ¬(ifNoneMatch = true ∧
        (effectiveEntryOf (List.lookup key sh.entries) now).isSome = true) →
      (effectiveEntryOf (List.lookup key sh.entries) now = none ∨
        ∃ e', effectiveEntryOf (List.lookup key sh.entries) now = some e' ∧
          e'.version ≠ v) →
      executeSet sh key entry ifMatch ifNoneMatch now newVersion =
        .error (.conflictVersionMismatch key v
          (actualVersionOf (effectiveEntryOf (List.lookup key sh.entries) now)))) := by
  refine ⟨?_, ?_, ?_⟩
  · intro hl hexp
    simp [effectiveEntryOf, hl, hexp]
  · intro hnm hsome
    simp [executeSet, hnm, hsome]
  · intro hm hv hnot heff
    have h1 : (ifNoneMatch &&
        (effectiveEntryOf (List.lookup key sh.entries) now).isSome) = false := by
      cases hb : ifNoneMatch with
      | false => simp
      | true =>
        simp only [Bool.true_and]
        cases hsome : (effectiveEntryOf (List.lookup key sh.entries) now).isSome with
        | false => rfl
        | true => exact absurd ⟨hb, hsome⟩ hnot
    have h2 : ifMatchRejects ifMatch
        (effectiveEntryOf (List.lookup key sh.entries) now) = true := by
      subst hm
      simp only [ifMatchRejects, jsStrTruthy, Option.getD_some, Bool.and_eq_true,
        bne_iff_ne, ne_eq]
      refine ⟨hv, ?_⟩
      cases heffc : effectiveEntryOf (List.lookup key sh.entries) now with
      | none => simp
      | some e' =>
        simp only []
        rcases heff with h | ⟨e'', h'', hver⟩
        · rw [heffc] at h; exact absurd h (by simp)
        · rw [heffc] at h''
          simp only [Option.some.injEq] at h''
          subst h''
          simpa using hver
    have hgd : ifMatch.getD "" = v := by rw [hm]; rfl
    simp [executeSet, h1, h2, hgd]

theorem c4_cas_conditional_set_witness :
    executeSet c4W "w" c4E none true 500 "nv" =
      .error (.conflictKeyExists "w") ∧
    executeSet c4W "w" c4E (some "zz") false 500 "nv" =
      .error (.conflictVersionMismatch "w" "zz"
        (actualVersionOf (effectiveEntryOf (List.lookup "w" c4W.entries) 500))) :=
  ⟨(c4_cas_conditional_set c4W "w" c4E c4E "zz" none true 500 "nv").2.1 rfl
      (by decide),
   (c4_cas_conditional_set c4W "w" c4E c4E "zz" (some "zz") false 500 "nv").2.2
      rfl (by decide) (by simp) (Or.inr ⟨c4E, by decide, by decide⟩)⟩

/-- Claim C10 (confirmed). `executeIncrement` does not treat an expired entry as
absent: a number-typed entry with `expires_at = some t ≤ now` contributes its
stale value as the base (result `v + delta`, not `0 + delta`), and the stored
replacement entry has no `expires_at` at all — the key is resurrected as a
permanent entry — while the set path's expired-as-absent view
(`effectiveEntryOf`) maps the same state to `none`. -/
theorem c10_increment_resurrects_expired (sh : CacheShard) (key : String)
    (delta : Int) (now t : Nat) (v : Int) (e : CacheEntry) (newVersion : String)
    (hl : List.lookup key sh.entries = some e)
    (htype : e.type = ValueType.number) (hval : e.value = .num v)
    (he : e.expiresAt = some t) (ht0 : 0 < t) (htn : t ≤ now) :
    (∃ sh', executeIncrement sh key delta now newVersion =
        .ok (v + delta, newVersion, sh') ∧
      List.lookup key sh'.entries = some
        { key := key, value := .num (v + delta), type := .number,
          version := newVersion, createdAt := jsCreatedAt (some e) now,
          updatedAt := now, expiresAt := none, sizeBytes := 8 }) ∧
    effectiveEntryOf (List.lookup key sh.entries) now = none := by
  constructor
  · have hstep : executeIncrement sh key delta now newVersion =
        .ok (v + delta, newVersion,
          { sh with
              entries := entriesSet sh.entries key
                { key := key, value := .num (v + delta), type := .number,
                  version := newVersion, createdAt := jsCreatedAt (some e) now,
                  updatedAt := now, expiresAt := none, sizeBytes := 8 },
              lru := (sh.lru.set key 8).1,
              stats := { sh.stats with sets := sh.stats.sets + 1 } }) := by
      simp [executeIncrement, hl, htype, hval]
    exact ⟨_, hstep, lookup_entriesSet_self _ _ _⟩
  · have hexp : isExpiredNow e.expiresAt now = true := by
      rw [he]
      simp only [isExpiredNow, Bool.and_eq_true, bne_iff_ne, ne_eq,
        decide_eq_true_eq]
      exact ⟨by omega, htn⟩
    simp [effectiveEntryOf, hl, hexp]

theorem c10_increment_resurrects_expired_witness :
    effectiveEntryOf (List.lookup "n" c10W.entries) 2000 = none ∧
    (executeIncrement c10W "n" 3 2000 "v2").map (fun p => p.1) = .ok 8 :=
  have h := c10_increment_resurrects_expired c10W "n" 3 2000 1000 5 c10E "v2"
    (by decide) (by decide) (by decide) (by decide) (by decide) (by decide)
  ⟨h.2, by obtain ⟨sh', h1, _⟩ := h.1; rw [h1]; rfl⟩

/-- Claim C9 (corrected). TTL=0 is *not* refused: `TTLSchema` accepts 0, and a
set carrying `ttlSec = 0` is admitted as an entry with no expiry (the falsy
TTL short-circuits in `createEntry`) — not as insert-then-immediate-expire.
The write invariant survives: for every schema-accepted TTL the created entry
either has no `expires_at` or satisfies `expires_at > updated_at`. -/
theorem c9_amended_ttl_zero_no_expiry (k : String) (v : CacheValue)
    (ttlSec now : Nat) (_hacc : ttlSchemaAccepts ttlSec = true) :
    ttlSchemaAccepts 0 = true ∧
    (createEntry k v (some 0) now).expiresAt = none ∧
    ((createEntry k v (some ttlSec) now).expiresAt = none ∨
      ∃ u, (createEntry k v (some ttlSec) now).expiresAt = some u ∧
        (createEntry k v (some ttlSec) now).updatedAt < u) := by
  refine ⟨by decide, by simp [createEntry], ?_⟩
  by_cases h0 : ttlSec = 0
  · subst h0
    exact Or.inl (by simp [createEntry])
  · refine Or.inr ⟨now + ttlSec * 1000, ?_, ?_⟩
    · simp [createEntry, h0]
    · show (createEntry k v (some ttlSec) now).updatedAt < now + ttlSec * 1000
      have : 0 < ttlSec * 1000 := by positivity
      simp only [createEntry]
      omega

theorem c9_amended_ttl_zero_no_expiry_witness :
    ttlSchemaAccepts 5 = true ∧
    ((createEntry "k" (.str "x") (some 5) 1000).expiresAt = none ∨
      ∃ u, (createEntry "k" (.str "x") (some 5) 1000).expiresAt = some u ∧
        (createEntry "k" (.str "x") (some 5) 1000).updatedAt < u) :=
  ⟨by decide,
   (c9_amended_ttl_zero_no_expiry "k" (.str "x") 5 1000 (by decide)).2.2⟩

theorem lookup_cons_self {β : Type} (a : String) (b : β) (l : List (String × β)) :
    List.lookup a ((a, b) :: l) = some b := by
  simp [List.lookup]

theorem lookup_cons_ne {β : Type} (a k : String) (b : β) (l : List (String × β))
    (h : k ≠ a) : List.lookup k ((a, b) :: l) = List.lookup k l := by
  simp only [List.lookup]
  rw [show (k == a) = false by simp [h]]

theorem lookup_filter_other {β : Type} (m : List (String × β)) (k k' : String)
    (h : k' ≠ k) :
    List.lookup k' (m.filter (fun p => p.1 != k)) = List.lookup k' m := by
  induction m with
  | nil => rfl
  | cons p t ih =>
    rcases p with ⟨a, b⟩
    rw [List.filter_cons]
    by_cases ha : a = k
    · rw [show ((a, b).1 != k) = false by simp [ha]]
      rw [if_neg (by simp)]
      rw [ih, lookup_cons_ne a k' b t (by rw [ha]; exact h)]
    · rw [show ((a, b).1 != k) = true by simp [ha]]
      rw [if_pos rfl]
      by_cases hk : k' = a
      · subst hk; rw [lookup_cons_self, lookup_cons_self]
      · rw [lookup_cons_ne a k' b _ hk, lookup_cons_ne a k' b t hk, ih]

theorem lookup_buildKeyOrderAux_of_not_mem (m : List (String × Nat)) (i : Nat)
    (ks : List String) (k : String) (hk : k ∉ ks) :
    List.lookup k (buildKeyOrderAux m i ks) = List.lookup k m := by
  induction ks generalizing m i with
  | nil => rfl
  | cons a rest ih =>
    have hka : k ≠ a := fun h => hk (h ▸ List.mem_cons_self a rest)
    have hkrest : k ∉ rest := fun h => hk (List.mem_cons_of_mem a h)
    show List.lookup k (buildKeyOrderAux (assocSet m a i) (i + 1) rest) = _
    rw [ih _ _ hkrest]
    unfold assocSet
    rw [lookup_cons_ne a k i _ hka]
    exact lookup_filter_other m a k hka

theorem lookup_buildKeyOrderAux_nodup (ks : List String) :
    ks.Nodup → ∀ (m : List (String × Nat)) (i j : Nat) (hj : j < ks.length),
      List.lookup (ks.get ⟨j, hj⟩) (buildKeyOrderAux m i ks) = some (i + j) := by
  induction ks with
  | nil => intro _ m i j hj; exact absurd hj (by simp)
  | cons a rest ih =>
    intro hnd m i j hj
    rcases List.nodup_cons.mp hnd with ⟨hna, hndr⟩
    cases j with
    | zero =>
      show List.lookup a (buildKeyOrderAux (assocSet m a i) (i + 1) rest) = some (i + 0)
      rw [lookup_buildKeyOrderAux_of_not_mem _ _ _ _ hna]
      unfold assocSet
      rw [lookup_cons_self]
      simp
    | succ j' =>
      show List.lookup (rest.get ⟨j', _⟩) (buildKeyOrderAux (assocSet m a i) (i + 1) rest)
        = some (i + (j' + 1))
      rw [ih hndr _ (i + 1) j' (by simpa using Nat.lt_of_succ_lt_succ hj)]
      congr 1
      omega

theorem jsKeyOrder_get (keys : List String) (hnd : keys.Nodup) (j : Nat)
    (hj : j < keys.length) : jsKeyOrder keys (keys.get ⟨j, hj⟩) = j := by
  unfold jsKeyOrder buildKeyOrder
  rw [lookup_buildKeyOrderAux_nodup keys hnd [] 0 j hj]
  simp

theorem map_jsKeyOrder_eq_range (keys : List String) (hnd : keys.Nodup) :
    keys.map (jsKeyOrder keys) = List.range keys.length := by
  apply List.ext_getElem (by simp)
  intro i h1 h2
  simp only [List.getElem_map, List.getElem_range]
  have h1' : i < keys.length := by simpa using h1
  simpa [List.get_eq_getElem] using jsKeyOrder_get keys hnd i h1'

theorem jsKeyOrder_getElem_of_mem (keys : List String) (hnd : keys.Nodup)
    (k : String) (hk : k ∈ keys) :
    keys[jsKeyOrder keys k]? = some k := by
  obtain ⟨⟨j, hj⟩, hget⟩ := List.mem_iff_get.mp hk
  rw [← hget, jsKeyOrder_get keys hnd j hj]
  simp [List.getElem?_eq_getElem hj, List.get_eq_getElem]

theorem sortInsert_perm (f : α → Nat) (a : α) (l : List α) :
    List.Perm (sortInsert f a l) (a :: l) := by
  induction l with
  | nil => exact List.Perm.refl _
  | cons b t ih =>
    unfold sortInsert
    by_cases h : f a ≤ f b
    · rw [if_pos h]
    · rw [if_neg h]
      exact (ih.cons b).trans (List.Perm.swap a b t)

theorem stableSortBy_perm (f : α → Nat) (l : List α) :
    List.Perm (stableSortBy f l) l := by
  induction l with
  | nil => exact List.Perm.refl _
  | cons a t ih => exact (sortInsert_perm f a _).trans (ih.cons a)

theorem mem_sortInsert (f : α → Nat) (a x : α) (l : List α) :
    x ∈ sortInsert f a l ↔ x = a ∨ x ∈ l :=
  ((sortInsert_perm f a l).mem_iff).trans List.mem_cons

theorem sortInsert_sorted (f : α → Nat) (a : α) (l : List α)
    (h : l.Sorted (fun x y => f x ≤ f y)) :
    (sortInsert f a l).Sorted (fun x y => f x ≤ f y) := by
  induction l with
  | nil => simp [sortInsert]
  | cons b t ih =>
    unfold sortInsert
    rw [List.sorted_cons] at h
    by_cases hab : f a ≤ f b
    · rw [if_pos hab, List.sorted_cons]
      refine ⟨?_, List.sorted_cons.mpr h⟩
      intro x hx
      rcases List.mem_cons.mp hx with rfl | hx'
      · exact hab
      · exact le_trans hab (h.1 x hx')
    · rw [if_neg hab, List.sorted_cons]
      refine ⟨?_, ih h.2⟩
      intro x hx
      rcases (mem_sortInsert f a x t).mp hx with rfl | hx'
      · exact le_of_not_le hab
      · exact h.1 x hx'

theorem stableSortBy_sorted (f : α → Nat) (l : List α) :
    (stableSortBy f l).Sorted (fun x y => f x ≤ f y) := by
  induction l with
  | nil => simp [stableSortBy]
  | cons a t ih => exact sortInsert_sorted f a _ ih

/-- Claim C7 (corrected). Batch results: the re-sorted result vector always has
one element per input item, and when the input keys are pairwise distinct its
`i`-th element references the `i`-th input key, for *any* completion order of
the per-item futures (any permutation of the keys).  With duplicate keys the
positional guarantee fails (see the counterexample). -/
theorem c7_batch_results_in_input_order {α : Type} (keys : List String)
    (results : List (String × α)) :
    (sortBatchResults keys results).length = results.length ∧
    (keys.Nodup → List.Perm (results.map Prod.fst) keys →
      (sortBatchResults keys results).map Prod.fst = keys) := by
  constructor
  · exact (stableSortBy_perm _ results).length_eq
  · intro hnd hp
    have hperm : List.Perm (sortBatchResults keys results) results := by
      unfold sortBatchResults
      exact stableSortBy_perm _ results
    have hsorted : (sortBatchResults keys results).Sorted
        (fun x y => jsKeyOrder keys x.1 ≤ jsKeyOrder keys y.1) := by
      unfold sortBatchResults
      exact stableSortBy_sorted _ results
    have hmapperm : List.Perm ((sortBatchResults keys results).map
        (fun r => jsKeyOrder keys r.1)) (List.range keys.length) := by
      have s1 : List.Perm ((sortBatchResults keys results).map
          (fun r => jsKeyOrder keys r.1))
          (results.map (fun r => jsKeyOrder keys r.1)) :=
        hperm.map (fun r => jsKeyOrder keys r.1)
      have s2 : results.map (fun r => jsKeyOrder keys r.1)
          = (results.map Prod.fst).map (jsKeyOrder keys) := by
        rw [List.map_map]; rfl
      have s3 : List.Perm ((results.map Prod.fst).map (jsKeyOrder keys))
          (keys.map (jsKeyOrder keys)) := hp.map (jsKeyOrder keys)
      have s4 : keys.map (jsKeyOrder keys) = List.range keys.length :=
        map_jsKeyOrder_eq_range keys hnd
      exact ((s1.trans (s2 ▸ s3)).trans (s4 ▸ List.Perm.refl _))
    have hmapsorted : ((sortBatchResults keys results).map
        (fun r => jsKeyOrder keys r.1)).Sorted (· ≤ ·) := by
      rw [List.Sorted, List.pairwise_map]
      exact hsorted
    have hmapeq : (sortBatchResults keys results).map
        (fun r => jsKeyOrder keys r.1) = List.range keys.length :=
      List.eq_of_perm_of_sorted hmapperm hmapsorted
        ((List.pairwise_le_range keys.length))
    have hlen : (sortBatchResults keys results).length = keys.length := by
      have h1 := hperm.length_eq
      have h2 := hp.length_eq
      rw [List.length_map] at h2
      omega
    apply List.ext_getElem (by simpa using hlen)
    intro i h1 h2
    have hi : i < (sortBatchResults keys results).length := by simpa using h1
    have hmi : i < ((sortBatchResults keys results).map
        (fun r => jsKeyOrder keys r.1)).length := by simpa using h1
    have hfi : jsKeyOrder keys ((sortBatchResults keys results)[i]).1 = i := by
      have h := List.getElem_of_eq hmapeq hmi
      simpa [List.getElem_map, List.getElem_range] using h
    have hmem : ((sortBatchResults keys results)[i]).1 ∈ keys := by
      have hm1 : (sortBatchResults keys results)[i] ∈ sortBatchResults keys results :=
        List.getElem_mem hi
      have hm2 := hperm.subset hm1
      exact hp.subset (List.mem_map_of_mem Prod.fst hm2)
    have hkey := jsKeyOrder_getElem_of_mem keys hnd _ hmem
    rw [hfi] at hkey
    rw [List.getElem?_eq_getElem h2] at hkey
    simp only [List.getElem_map]
    exact (Option.some.injEq _ _ ▸ hkey).symm

theorem c7_batch_results_in_input_order_witness :
    (sortBatchResults ["a", "b"] c7WResults).length = c7WResults.length ∧
    (sortBatchResults ["a", "b"] c7WResults).map Prod.fst = ["a", "b"] :=
  have h := c7_batch_results_in_input_order ["a", "b"] c7WResults
  ⟨h.1, h.2 (by decide) (by decide)⟩

/-- Claim C7 counterexample. With duplicate input keys `["a", "b", "a"]` the
`keyOrder` map keeps only the last index per key, so the re-sorted result
vector starts with the result for `"b"`: its 0-th element does not reference
the 0-th input key. -/
theorem c7_duplicate_keys_break_positional_order :
    (sortBatchResults ["a", "b", "a"]
        [("a", 0), ("b", 0), ("a", 1)]).map Prod.fst = ["b", "a", "a"] ∧
    ("b" : String) ≠ "a" := by
  decide

theorem sizeSum_cons (p : String × Nat) (t : List (String × Nat)) :
    sizeSum (p :: t) = p.2 + sizeSum t := by
  simp [sizeSum]

theorem sizeSum_reverse (l : List (String × Nat)) :
    sizeSum l.reverse = sizeSum l :=
  ((List.reverse_perm l).map Prod.snd).sum_eq

theorem lookup_none_not_mem_fst {β : Type} {items : List (String × β)}
    {key : String} (h : List.lookup key items = none) :
    key ∉ items.map Prod.fst := by
  induction items with
  | nil => simp
  | cons p t ih =>
    rcases p with ⟨a, b⟩
    by_cases hk : key = a
    · subst hk; rw [lookup_cons_self] at h; exact absurd h (by simp)
    · rw [lookup_cons_ne a key b t hk] at h
      intro hmem
      rcases List.mem_cons.mp hmem with h1 | h2
      · exact hk h1
      · exact (ih h) h2

theorem filter_ne_of_not_mem_fst {β : Type} {items : List (String × β)}
    {key : String} (h : key ∉ items.map Prod.fst) :
    items.filter (fun p => p.1 != key) = items := by
  apply List.filter_eq_self.mpr
  intro p hp
  have : p.1 ≠ key := by
    intro he
    exact h (he ▸ List.mem_map_of_mem Prod.fst hp)
  simpa using this

theorem lookup_some_perm {β : Type} {items : List (String × β)} {key : String}
    {v : β} (hnd : (items.map Prod.fst).Nodup)
    (hl : List.lookup key items = some v) :
    List.Perm items ((key, v) :: items.filter (fun p => p.1 != key)) := by
  induction items with
  | nil => exact absurd hl (by simp)
  | cons p t ih =>
    rcases p with ⟨a, b⟩
    rw [List.map_cons] at hnd
    rcases List.nodup_cons.mp hnd with ⟨hna, hndt⟩
    by_cases hk : key = a
    · subst hk
      rw [lookup_cons_self] at hl
      have hv : b = v := by injection hl
      rw [List.filter_cons]
      rw [show ((key, b).1 != key) = false by simp]
      rw [if_neg (by simp)]
      rw [filter_ne_of_not_mem_fst hna, hv]
    · rw [lookup_cons_ne a key b t hk] at hl
      rw [List.filter_cons]
      rw [show ((a, b).1 != key) = true by
        have hak : a ≠ key := fun h => hk h.symm
        simpa using hak]
      rw [if_pos rfl]
      exact ((ih hndt hl).cons (a, b)).trans (List.Perm.swap (key, v) (a, b) _)

theorem lruInsertOrUpdate_capacity (lru : SizeAwareLRU) (key : String)
    (sizeBytes : Nat) :
    (lruInsertOrUpdate lru key sizeBytes).capacity = lru.capacity := by
  unfold lruInsertOrUpdate
  cases List.lookup key lru.items <;> rfl

theorem lruInsertOrUpdate_maxSizeBytes (lru : SizeAwareLRU) (key : String)
    (sizeBytes : Nat) :
    (lruInsertOrUpdate lru key sizeBytes).maxSizeBytes = lru.maxSizeBytes := by
  unfold lruInsertOrUpdate
  cases List.lookup key lru.items <;> rfl

theorem lruInsertOrUpdate_head (lru : SizeAwareLRU) (key : String)
    (sizeBytes : Nat) :
    (lruInsertOrUpdate lru key sizeBytes).items.head? = some (key, sizeBytes) := by
  unfold lruInsertOrUpdate
  cases List.lookup key lru.items <;> rfl

theorem lruInsertOrUpdate_wf (lru : SizeAwareLRU) (key : String)
    (sizeBytes : Nat) (hwf : lruWF lru) :
    lruWF (lruInsertOrUpdate lru key sizeBytes) := by
  obtain ⟨hsz, hbytes, hnd⟩ := hwf
  unfold lruInsertOrUpdate
  cases hl : List.lookup key lru.items with
  | none =>
    refine ⟨by simp [hsz], ?_, ?_⟩
    · show lru.currentSizeBytes + sizeBytes = sizeSum ((key, sizeBytes) :: lru.items)
      rw [sizeSum_cons]
      show lru.currentSizeBytes + sizeBytes = sizeBytes + sizeSum lru.items
      omega
    · simp only [List.map_cons]
      exact List.nodup_cons.mpr ⟨lookup_none_not_mem_fst hl, hnd⟩
  | some oldSize =>
    have hperm := lookup_some_perm hnd hl
    have hlen : lru.items.length
        = (lru.items.filter (fun p => p.1 != key)).length + 1 := by
      simpa using hperm.length_eq
    have hsum : sizeSum lru.items
        = oldSize + sizeSum (lru.items.filter (fun p => p.1 != key)) := by
      have h := (hperm.map Prod.snd).sum_eq
      simpa [sizeSum] using h
    refine ⟨?_, ?_, ?_⟩
    · show lru.size = ((key, sizeBytes) :: removeNodeKey lru.items key).length
      simp only [removeNodeKey, List.length_cons]
      omega
    · show lru.currentSizeBytes - oldSize + sizeBytes
        = sizeSum ((key, sizeBytes) :: removeNodeKey lru.items key)
      rw [sizeSum_cons]
      show lru.currentSizeBytes - oldSize + sizeBytes
        = sizeBytes + sizeSum (removeNodeKey lru.items key)
      simp only [removeNodeKey]
      omega
    · simp only [removeNodeKey, List.map_cons]
      refine List.nodup_cons.mpr ⟨?_, ?_⟩
      · intro hmem
        rcases List.mem_map.mp hmem with ⟨p, hp, hfst⟩
        have hpf := List.of_mem_filter hp
        rw [hfst] at hpf
        simp at hpf
      · exact List.Nodup.sublist ((List.filter_sublist _).map Prod.fst) hnd

theorem evictLoop_cons_of_over (cap maxB : Option Nat) (k : String) (s : Nat)
    (t : List (String × Nat)) (sz bytes : Nat)
    (hc : (overLimit cap sz || overLimit maxB bytes) = true) :
    evictLoop cap maxB ((k, s) :: t) sz bytes =
      ((evictLoop cap maxB t (sz - 1) (bytes - s)).1,
       (evictLoop cap maxB t (sz - 1) (bytes - s)).2.1,
       (evictLoop cap maxB t (sz - 1) (bytes - s)).2.2.1,
       k :: (evictLoop cap maxB t (sz - 1) (bytes - s)).2.2.2) := by
  rw [show evictLoop cap maxB ((k, s) :: t) sz bytes =
      if (overLimit cap sz || overLimit maxB bytes) = true then
        let r := evictLoop cap maxB t (sz - 1) (bytes - s)
        (r.1, r.2.1, r.2.2.1, k :: r.2.2.2)
      else ((k, s) :: t, sz, bytes, []) from rfl]
  rw [if_pos hc]

theorem evictLoop_cons_of_not_over (cap maxB : Option Nat) (k : String)
    (s : Nat) (t : List (String × Nat)) (sz bytes : Nat)
    (hc : (overLimit cap sz || overLimit maxB bytes) = false) :
    evictLoop cap maxB ((k, s) :: t) sz bytes = ((k, s) :: t, sz, bytes, []) := by
  rw [show evictLoop cap maxB ((k, s) :: t) sz bytes =
      if (overLimit cap sz || overLimit maxB bytes) = true then
        let r := evictLoop cap maxB t (sz - 1) (bytes - s)
        (r.1, r.2.1, r.2.2.1, k :: r.2.2.2)
      else ((k, s) :: t, sz, bytes, []) from rfl]
  rw [if_neg (by simp [hc])]

theorem evictLoop_decomposition (cap maxB : Option Nat) :
    ∀ (l : List (String × Nat)) (sz bytes : Nat),
      ∃ evp : List (String × Nat),
        l = evp ++ (evictLoop cap maxB l sz bytes).1 ∧
        (evictLoop cap maxB l sz bytes).2.2.2 = evp.map Prod.fst := by
  intro l
  induction l with
  | nil => intro sz bytes; exact ⟨[], by simp [evictLoop]⟩
  | cons p t ih =>
    intro sz bytes
    rcases p with ⟨k, s⟩
    by_cases hc : (overLimit cap sz || overLimit maxB bytes) = true
    · obtain ⟨evp, h1, h2⟩ := ih (sz - 1) (bytes - s)
      rw [evictLoop_cons_of_over cap maxB k s t sz bytes hc]
      exact ⟨(k, s) :: evp, by rw [List.cons_append, ← h1], by simp [h2]⟩
    · rw [evictLoop_cons_of_not_over cap maxB k s t sz bytes (by simpa using hc)]
      exact ⟨[], by simp⟩

theorem evictLoop_wf (cap maxB : Option Nat) :
    ∀ (l : List (String × Nat)) (sz bytes : Nat),
      sz = l.length → bytes = sizeSum l →
      (evictLoop cap maxB l sz bytes).2.1
        = (evictLoop cap maxB l sz bytes).1.length ∧
      (evictLoop cap maxB l sz bytes).2.2.1
        = sizeSum (evictLoop cap maxB l sz bytes).1 := by
  intro l
  induction l with
  | nil =>
    intro sz bytes h1 h2
    refine ⟨by simpa [evictLoop] using h1, by simpa [evictLoop, sizeSum] using h2⟩
  | cons p t ih =>
    intro sz bytes h1 h2
    rcases p with ⟨k, s⟩
    rw [sizeSum_cons] at h2
    by_cases hc : (overLimit cap sz || overLimit maxB bytes) = true
    · rw [evictLoop_cons_of_over cap maxB k s t sz bytes hc]
      exact ih (sz - 1) (bytes - s) (by simp [h1]) (by omega)
    · rw [evictLoop_cons_of_not_over cap maxB k s t sz bytes (by simpa using hc)]
      refine ⟨?_, ?_⟩
      · show sz = ((k, s) :: t).length
        simpa using h1
      · show bytes = sizeSum ((k, s) :: t)
        rw [sizeSum_cons]
        omega

theorem overLimit_zero (o : Option Nat) : overLimit o 0 = false := by
  cases o <;> simp [overLimit]

theorem evictLoop_post (cap maxB : Option Nat) :
    ∀ (l : List (String × Nat)) (sz bytes : Nat),
      sz = l.length → bytes = sizeSum l →
      overLimit cap (evictLoop cap maxB l sz bytes).2.1 = false ∧
      overLimit maxB (evictLoop cap maxB l sz bytes).2.2.1 = false := by
  intro l
  induction l with
  | nil =>
    intro sz bytes h1 h2
    have hsz0 : sz = 0 := by simpa using h1
    have hb0 : bytes = 0 := by simpa [sizeSum] using h2
    subst hsz0; subst hb0
    exact ⟨overLimit_zero cap, overLimit_zero maxB⟩
  | cons p t ih =>
    intro sz bytes h1 h2
    rcases p with ⟨k, s⟩
    rw [sizeSum_cons] at h2
    by_cases hc : (overLimit cap sz || overLimit maxB bytes) = true
    · rw [evictLoop_cons_of_over cap maxB k s t sz bytes hc]
      exact ih (sz - 1) (bytes - s) (by simp [h1]) (by omega)
    · have hc' : (overLimit cap sz || overLimit maxB bytes) = false := by
        simpa using hc
      rw [evictLoop_cons_of_not_over cap maxB k s t sz bytes hc']
      exact ⟨(Bool.or_eq_false_iff.mp hc').1, (Bool.or_eq_false_iff.mp hc').2⟩

theorem evictLoop_self_evict (cap : Option Nat) (m : Nat) (key0 : String)
    (size0 : Nat) (hm : m < size0) :
    ∀ (l : List (String × Nat)) (sz bytes : Nat),
      l.getLast? = some (key0, size0) → sz = l.length → bytes = sizeSum l →
      (evictLoop cap (some m) l sz bytes).1 = [] ∧
      (evictLoop cap (some m) l sz bytes).2.1 = 0 ∧
      key0 ∈ (evictLoop cap (some m) l sz bytes).2.2.2 := by
  intro l
  induction l with
  | nil => intro sz bytes hlast _ _; simp at hlast
  | cons p t ih =>
    intro sz bytes hlast hsz hb
    rcases p with ⟨k, s⟩
    cases t with
    | nil =>
      have hks : (k, s) = (key0, size0) := by simpa using hlast
      have hs0 : s = size0 := congrArg Prod.snd hks
      have hk0 : k = key0 := congrArg Prod.fst hks
      have hbs : bytes = size0 := by
        rw [hb, sizeSum_cons]
        simp [sizeSum, hs0]
      have hc : (overLimit cap sz || overLimit (some m) bytes) = true := by
        have hr : overLimit (some m) bytes = true := by simp [overLimit, hbs, hm]
        simp [hr]
      rw [evictLoop_cons_of_over cap (some m) k s [] sz bytes hc]
      refine ⟨rfl, ?_, ?_⟩
      · show sz - 1 = 0
        simp [hsz]
      · show key0 ∈ k :: (evictLoop cap (some m) [] (sz - 1) (bytes - s)).2.2.2
        rw [hk0]
        exact List.mem_cons_self _ _
    | cons q t' =>
      have hlast' : (q :: t').getLast? = some (key0, size0) := by
        simpa [List.getLast?_cons_cons] using hlast
      have hmem := List.mem_of_getLast?_eq_some hlast'
      have hle : size0 ≤ sizeSum (q :: t') := by
        have hms : (key0, size0).2 ∈ (q :: t').map Prod.snd :=
          List.mem_map_of_mem Prod.snd hmem
        exact List.single_le_sum (fun x _ => Nat.zero_le x) _ hms
      have hbge : m < bytes := by
        rw [hb, sizeSum_cons]
        omega
      have hc : (overLimit cap sz || overLimit (some m) bytes) = true := by
        have hr : overLimit (some m) bytes = true := by simp [overLimit, hbge]
        simp [hr]
      rw [evictLoop_cons_of_over cap (some m) k s (q :: t') sz bytes hc]
      have hres := ih (sz - 1) (bytes - s) hlast' (by simp [hsz])
        (by rw [hb, sizeSum_cons]; omega)
      exact ⟨hres.1, hres.2.1, List.mem_cons_of_mem k hres.2.2⟩

theorem evict_fresh_key_forces_empty (cap maxB : Option Nat)
    (l : List (String × Nat)) (sz bytes : Nat) (key : String) (s0 : Nat)
    (hnd : (l.map Prod.fst).Nodup) (hlast : l.getLast? = some (key, s0)) :
    key ∈ (evictLoop cap maxB l sz bytes).2.2.2 →
    (evictLoop cap maxB l sz bytes).1 = [] := by
  intro hkey
  obtain ⟨evp, hdecomp, hev⟩ := evictLoop_decomposition cap maxB l sz bytes
  by_contra hne
  have hklast : (evictLoop cap maxB l sz bytes).1.getLast? = some (key, s0) := by
    rw [hdecomp, List.getLast?_append] at hlast
    cases hkl : (evictLoop cap maxB l sz bytes).1.getLast? with
    | none =>
      exact absurd (List.getLast?_eq_none_iff.mp hkl) hne
    | some x =>
      rw [hkl] at hlast
      simpa using hlast
  have hkeykept : key ∈ (evictLoop cap maxB l sz bytes).1.map Prod.fst :=
    List.mem_map_of_mem Prod.fst (List.mem_of_getLast?_eq_some hklast)
  have hkeyevp : key ∈ evp.map Prod.fst := by rw [← hev]; exact hkey
  have hndapp : (evp.map Prod.fst
      ++ (evictLoop cap maxB l sz bytes).1.map Prod.fst).Nodup := by
    rw [← List.map_append, ← hdecomp]
    exact hnd
  exact (List.nodup_append.mp hndapp).2.2 hkeyevp hkeykept

/-- Claim C5 (confirmed). `SizeAwareLRU.set` postconditions: an update replaces
the old size in the byte total (and adds no node) before the eviction loop;
the fresh item heads the pre-eviction list; victims are detached from the tail
in order (the pre-eviction list splits as evicted-prefix-of-the-reverse plus
the kept suffix); the fresh item is a victim only when nothing else remains;
under the pathological budget `max_bytes < new_size` it evicts itself leaving
`len = 0`; on return `len ≤ max_entries` and `bytes ≤ max_bytes`; and the
byte/length accounting (`lruWF`) is preserved. -/
theorem c5_lru_set_eviction (lru : SizeAwareLRU) (key : String)
    (sizeBytes : Nat) (hwf : lruWF lru) :
    (∀ oldSize, List.lookup key lru.items = some oldSize →
      (lruInsertOrUpdate lru key sizeBytes).currentSizeBytes
          = lru.currentSizeBytes - oldSize + sizeBytes ∧
      (lruInsertOrUpdate lru key sizeBytes).items.length = lru.items.length) ∧
    (lruInsertOrUpdate lru key sizeBytes).items.head? = some (key, sizeBytes) ∧
    (∃ evp : List (String × Nat),
      (lruInsertOrUpdate lru key sizeBytes).items.reverse
          = evp ++ (lru.set key sizeBytes).1.items.reverse ∧
      (lru.set key sizeBytes).2 = evp.map Prod.fst) ∧
    (key ∈ (lru.set key sizeBytes).2 → (lru.set key sizeBytes).1.items = []) ∧
    (∀ m, lru.maxSizeBytes = some m → m < sizeBytes →
      (lru.set key sizeBytes).1.items = [] ∧ (lru.set key sizeBytes).1.size = 0 ∧
      key ∈ (lru.set key sizeBytes).2) ∧
    (∀ c, lru.capacity = some c → (lru.set key sizeBytes).1.size ≤ c) ∧
    (∀ m, lru.maxSizeBytes = some m →
      (lru.set key sizeBytes).1.currentSizeBytes ≤ m) ∧
    lruWF (lru.set key sizeBytes).1 := by
  have hwf1 := lruInsertOrUpdate_wf lru key sizeBytes hwf
  obtain ⟨hsz1, hbytes1, hnd1⟩ := hwf1
  have hhead := lruInsertOrUpdate_head lru key sizeBytes
  have hszrev : (lruInsertOrUpdate lru key sizeBytes).size
      = (lruInsertOrUpdate lru key sizeBytes).items.reverse.length := by
    simpa using hsz1
  have hbytesrev : (lruInsertOrUpdate lru key sizeBytes).currentSizeBytes
      = sizeSum (lruInsertOrUpdate lru key sizeBytes).items.reverse := by
    rw [sizeSum_reverse]
    exact hbytes1
  have hlastrev : (lruInsertOrUpdate lru key sizeBytes).items.reverse.getLast?
      = some (key, sizeBytes) := by
    rw [List.getLast?_reverse]
    exact hhead
  have hndrev : ((lruInsertOrUpdate lru key sizeBytes).items.reverse.map
      Prod.fst).Nodup := by
    rw [List.map_reverse]
    exact List.nodup_reverse.mpr hnd1
  refine ⟨?_, hhead, ?_, ?_, ?_, ?_, ?_, ?_⟩
  · intro oldSize hl
    obtain ⟨_, hbytes, hnd⟩ := hwf
    have hperm := lookup_some_perm hnd hl
    have hlen : lru.items.length
        = (lru.items.filter (fun p => p.1 != key)).length + 1 := by
      simpa using hperm.length_eq
    constructor
    · unfold lruInsertOrUpdate
      rw [hl]
    · unfold lruInsertOrUpdate
      rw [hl]
      simp only [removeNodeKey, List.length_cons]
      omega
  · obtain ⟨evp, h1, h2⟩ := evictLoop_decomposition
      (lruInsertOrUpdate lru key sizeBytes).capacity
      (lruInsertOrUpdate lru key sizeBytes).maxSizeBytes
      (lruInsertOrUpdate lru key sizeBytes).items.reverse
      (lruInsertOrUpdate lru key sizeBytes).size
      (lruInsertOrUpdate lru key sizeBytes).currentSizeBytes
    refine ⟨evp, ?_, ?_⟩
    · show (lruInsertOrUpdate lru key sizeBytes).items.reverse
        = evp ++ (evictLoop _ _ _ _ _).1.reverse.reverse
      rw [List.reverse_reverse]
      exact h1
    · exact h2
  · intro hkey
    show (evictLoop _ _ _ _ _).1.reverse = []
    rw [evict_fresh_key_forces_empty _ _ _ _ _ key sizeBytes hndrev hlastrev hkey]
    rfl
  · intro m hmax hlt
    have hmax1 : (lruInsertOrUpdate lru key sizeBytes).maxSizeBytes = some m := by
      rw [lruInsertOrUpdate_maxSizeBytes]
      exact hmax
    have h := evictLoop_self_evict
      (lruInsertOrUpdate lru key sizeBytes).capacity m key sizeBytes hlt
      (lruInsertOrUpdate lru key sizeBytes).items.reverse
      (lruInsertOrUpdate lru key sizeBytes).size
      (lruInsertOrUpdate lru key sizeBytes).currentSizeBytes
      hlastrev hszrev hbytesrev
    refine ⟨?_, ?_, ?_⟩
    · show (evictLoop _ _ _ _ _).1.reverse = []
      rw [hmax1, h.1]
      rfl
    · show (evictLoop _ _ _ _ _).2.1 = 0
      rw [hmax1]
      exact h.2.1
    · show key ∈ (evictLoop _ _ _ _ _).2.2.2
      rw [hmax1]
      exact h.2.2
  · intro c hc
    have hpost := evictLoop_post
      (lruInsertOrUpdate lru key sizeBytes).capacity
      (lruInsertOrUpdate lru key sizeBytes).maxSizeBytes
      (lruInsertOrUpdate lru key sizeBytes).items.reverse
      (lruInsertOrUpdate lru key sizeBytes).size
      (lruInsertOrUpdate lru key sizeBytes).currentSizeBytes
      hszrev hbytesrev
    have hc1 : (lruInsertOrUpdate lru key sizeBytes).capacity = some c := by
      rw [lruInsertOrUpdate_capacity]
      exact hc
    have h := hpost.1
    rw [hc1] at h
    show (evictLoop _ _ _ _ _).2.1 ≤ c
    rw [hc1]
    simpa [overLimit] using h
  · intro m hm
    have hpost := evictLoop_post
      (lruInsertOrUpdate lru key sizeBytes).capacity
      (lruInsertOrUpdate lru key sizeBytes).maxSizeBytes
      (lruInsertOrUpdate lru key sizeBytes).items.reverse
      (lruInsertOrUpdate lru key sizeBytes).size
      (lruInsertOrUpdate lru key sizeBytes).currentSizeBytes
      hszrev hbytesrev
    have hm1 : (lruInsertOrUpdate lru key sizeBytes).maxSizeBytes = some m := by
      rw [lruInsertOrUpdate_maxSizeBytes]
      exact hm
    have h := hpost.2
    rw [hm1] at h
    show (evictLoop _ _ _ _ _).2.2.1 ≤ m
    rw [hm1]
    simpa [overLimit] using h
  · have hloop := evictLoop_wf
      (lruInsertOrUpdate lru key sizeBytes).capacity
      (lruInsertOrUpdate lru key sizeBytes).maxSizeBytes
      (lruInsertOrUpdate lru key sizeBytes).items.reverse
      (lruInsertOrUpdate lru key sizeBytes).size
      (lruInsertOrUpdate lru key sizeBytes).currentSizeBytes
      hszrev hbytesrev
    obtain ⟨evp, hdec, _⟩ := evictLoop_decomposition
      (lruInsertOrUpdate lru key sizeBytes).capacity
      (lruInsertOrUpdate lru key sizeBytes).maxSizeBytes
      (lruInsertOrUpdate lru key sizeBytes).items.reverse
      (lruInsertOrUpdate lru key sizeBytes).size
      (lruInsertOrUpdate lru key sizeBytes).currentSizeBytes
    refine ⟨?_, ?_, ?_⟩
    · show (evictLoop _ _ _ _ _).2.1 = (evictLoop _ _ _ _ _).1.reverse.length
      rw [List.length_reverse]
      exact hloop.1
    · show (evictLoop _ _ _ _ _).2.2.1 = sizeSum (evictLoop _ _ _ _ _).1.reverse
      rw [sizeSum_reverse]
      exact hloop.2
    · show ((evictLoop _ _ _ _ _).1.reverse.map Prod.fst).Nodup
      rw [List.map_reverse]
      apply List.nodup_reverse.mpr
      have hndapp : ((evp ++ (evictLoop
          (lruInsertOrUpdate lru key sizeBytes).capacity
          (lruInsertOrUpdate lru key sizeBytes).maxSizeBytes
          (lruInsertOrUpdate lru key sizeBytes).items.reverse
          (lruInsertOrUpdate lru key sizeBytes).size
          (lruInsertOrUpdate lru key sizeBytes).currentSizeBytes).1).map
            Prod.fst).Nodup := by
        rw [← hdec]
        exact hndrev
      rw [List.map_append] at hndapp
      exact (List.nodup_append.mp hndapp).2.1

theorem c5_lru_set_eviction_witness :
    lruWF c5W ∧
    (lruInsertOrUpdate c5W "a" 10).items.head? = some ("a", 10) ∧
    (c5W.set "a" 10).1.size ≤ 2 ∧
    (c5W.set "a" 10).1.currentSizeBytes ≤ 100 :=
  have h := c5_lru_set_eviction c5W "a" 10 (by decide)
  ⟨by decide, h.2.1, h.2.2.2.2.2.1 2 rfl, h.2.2.2.2.2.2.1 100 rfl⟩

/-- Claim C9 counterexample. `TTLSchema` is `min(0)`, so `ttlSec = 0` passes
validation, and the set is admitted: it stores an entry with *no* expiry
(`ttlSec` is falsy in `createEntry`), contradicting the claim that TTL=0 is
refused at validation and never admitted as a stored entry. -/
theorem c9_ttl_zero_accepted_and_stored :
    ttlSchemaAccepts 0 = true ∧
    c9Run.map (fun p => (List.lookup "k" p.2.entries).map
      (fun e => e.expiresAt)) = .ok (some none) := by
  decide

end CacheService
